import Mathlib

/-!
# Verification of the quadrant-based water-quality OCR extraction engine

Shallow embedding of `scripts/process-image.js` (the canonical multi-strategy
variant of the repository).  Pure text/number processing is translated
directly; the external collaborators (sharp image transforms, the Tesseract
OCR engine, Firebase) appear as explicit inputs: per-parameter pipeline
outcomes are values of type `Except String (List Obs)` handed to the
orchestrator model.

Numeric model: JavaScript numbers are idealised as exact rationals (`ℚ`);
`parseFloat` parses the decimal token exactly and `toFixed(2)` rounds the
exact value (half away from zero on the magnitude, as in the ECMAScript
algorithm), including the `x ≥ 10^21` branch in which `toFixed` falls back
to `ToString` exponential notation.
-/

set_option autoImplicit false

namespace WaterQuality

attribute [local semireducible] Rat.add Rat.mul Rat.inv Rat.sub Rat.ofScientific

/-- The fixed closed set of parameters, one per image quadrant. -/
inductive Parameter where
  | pH
  | temperature
  | dissolvedOxygen
  | salinity
  deriving DecidableEq, Repr

/-- An axis-aligned sub-rectangle of the image, as passed to `sharp().extract`. -/
structure Region where
  left : Nat
  top : Nat
  width : Nat
  height : Nat
  deriving DecidableEq, Repr

/-- The quadrant layout computed in `processImage`:
`halfWidth = Math.floor(width / 2)`, `halfHeight = Math.floor(height / 2)`,
top-left → pH, top-right → temperature, bottom-left → dissolvedOxygen,
bottom-right → salinity. -/
def quadrants (width height : Nat) (p : Parameter) : Region :=
  let halfWidth := width / 2
  let halfHeight := height / 2
  match p with
  | Parameter.temperature => ⟨halfWidth, 0, halfWidth, halfHeight⟩
  | Parameter.pH => ⟨0, 0, halfWidth, halfHeight⟩
  | Parameter.dissolvedOxygen => ⟨0, halfHeight, halfWidth, halfHeight⟩
  | Parameter.salinity => ⟨halfWidth, halfHeight, halfWidth, halfHeight⟩

/-- Pixel membership in a region. -/
def Region.contains (r : Region) (x y : Nat) : Prop :=
  r.left ≤ x ∧ x < r.left + r.width ∧ r.top ≤ y ∧ y < r.top + r.height

instance (r : Region) (x y : Nat) : Decidable (r.contains x y) := by
  unfold Region.contains; infer_instance

/-! ## Text cleaning (`text.replace(/[^\d.\s-]/g, ' ').trim()`) -/

/-- One character of the cleaning pass: every character that is not a digit,
a dot, whitespace or a minus sign is replaced by a space. -/
def cleanChar (c : Char) : Char :=
  if c.isDigit ∨ c = '.' ∨ c.isWhitespace ∨ c = '-' then c else ' '

/-- `String.prototype.trim`: drop whitespace from both ends. -/
def trimWs (l : List Char) : List Char :=
  ((l.dropWhile Char.isWhitespace).reverse.dropWhile Char.isWhitespace).reverse

/-- The cleaned working character list of the raw OCR text. -/
def cleanText (s : String) : List Char :=
  trimWs (s.data.map cleanChar)

/-! ## Token scan (`cleanText.match` with the global pattern `-?\d+\.?\d*`) -/

/-- Longest digit prefix: returns the digit run and the remaining characters. -/
def takeDigits : List Char → List Char × List Char
  | [] => ([], [])
  | c :: cs =>
    if c.isDigit then
      match takeDigits cs with
      | (ds, r) => (c :: ds, r)
    else ([], c :: cs)

/-- Match `\d+\.?\d*` at the current position: one or more digits, an
optional dot, then any further digits (all greedy). -/
def matchNum (l : List Char) : Option (List Char × List Char) :=
  let ds := (takeDigits l).1
  let r := (takeDigits l).2
  if ds.isEmpty then none
  else if r.headD ' ' = '.' then
    some (ds ++ '.' :: (takeDigits r.tail).1, (takeDigits r.tail).2)
  else some (ds, r)

/-- Match `-?\d+\.?\d*` at the current position.  If a minus sign is not
followed by a digit the whole match fails at this position (the regex
alternative without the sign would have to start on the minus sign itself,
which is not a digit). -/
def matchToken (l : List Char) : Option (List Char × List Char) :=
  if l.headD ' ' = '-' then
    match matchNum l.tail with
    | some (t, r) => some ('-' :: t, r)
    | none => none
  else matchNum l

/-- Left-to-right global scan: try a match at each position, emit it and
resume after its end, otherwise advance one character.  The fuel argument
(instantiated with the list length) only serves structural termination. -/
def scanAux : Nat → List Char → List (List Char)
  | _, [] => []
  | 0, _ :: _ => []
  | Nat.succ fuel, c :: cs =>
    match matchToken (c :: cs) with
    | some (t, r) => t :: scanAux fuel r
    | none => scanAux fuel cs

/-- All numeric tokens of the cleaned text, in scan order. -/
def scanTokens (l : List Char) : List (List Char) :=
  scanAux l.length l

/-! ## Parsing (`parseFloat`) -/

/-- Numeric value of a digit character. -/
def digitVal (c : Char) : Nat := c.toNat - 48

/-- Value of a digit run read in base 10. -/
def digitsToNat (ds : List Char) : Nat :=
  ds.foldl (fun a c => a * 10 + digitVal c) 0

/-- `parseFloat` on an unsigned token: leading digits, optionally a dot and
fraction digits.  Returns `none` (NaN) when no leading digit exists. -/
def parseUnsigned (l : List Char) : Option ℚ :=
  let ds := (takeDigits l).1
  let r := (takeDigits l).2
  if ds.isEmpty then none
  else if r.headD ' ' = '.' then
    let fs := (takeDigits r.tail).1
    some ((digitsToNat ds : ℚ) + (digitsToNat fs : ℚ) / (10 : ℚ) ^ fs.length)
  else some ((digitsToNat ds : ℚ))

/-- `parseFloat` on a scanned token, handling the optional leading minus. -/
def parseToken (t : List Char) : Option ℚ :=
  if t.headD ' ' = '-' then (parseUnsigned t.tail).map (fun q => -q)
  else parseUnsigned t

/-! ## Formatting (`selectedValue.toFixed(2)`) -/

/-- Decimal digit characters of a natural number, most significant first.
The fuel argument (instantiated with `n + 1`, an upper bound on the digit
count) only serves structural termination. -/
def natDigitsAux : Nat → Nat → List Char
  | 0, _ => []
  | Nat.succ fuel, n =>
    if n < 10 then [Char.ofNat (48 + n)]
    else natDigitsAux fuel (n / 10) ++ [Char.ofNat (48 + n % 10)]

/-- Decimal digit characters of a natural number. -/
def natDigits (n : Nat) : List Char :=
  natDigitsAux (n + 1) n

/-- Pad a digit run on the left with zeros to length at least 3
(the ECMAScript `toFixed` padding step for fraction length 2). -/
def padTo3 (ds : List Char) : List Char :=
  if ds.length < 3 then List.replicate (3 - ds.length) '0' ++ ds else ds

/-- Render `n / 100` with an explicit decimal point and two fraction
digits (`toFixed(2)` main path for the scaled integer `n`). -/
def insertDot (n : Nat) : List Char :=
  let pd := padTo3 (natDigits n)
  pd.take (pd.length - 2) ++ '.' :: pd.drop (pd.length - 2)

/-- Strip trailing zero characters from a digit run. -/
def dropTrailingZeros (ds : List Char) : List Char :=
  (ds.reverse.dropWhile (fun c => c == '0')).reverse

/-- ECMAScript `ToString` for a magnitude of at least `10 ^ 21` (the branch
`toFixed` falls back to).  At this magnitude every IEEE double is an
integer, so the value is rendered from its integer part: with `s` the
significant digits (trailing zeros stripped) and `n` the total digit count,
the output is `d.ddd…e+⟨n-1⟩` (or `de+⟨n-1⟩` for a single significant
digit). -/
def jsLargeToString (a : ℚ) : List Char :=
  let ds := natDigits ⌊a⌋.toNat
  let n := ds.length
  match dropTrailingZeros ds with
  | [] => ['0']
  | [d] => d :: 'e' :: '+' :: natDigits (n - 1)
  | d :: rest => d :: '.' :: rest ++ 'e' :: '+' :: natDigits (n - 1)

/-- `Number.prototype.toFixed(2)` on the idealised exact value: sign,
then either the `≥ 10^21` `ToString` fallback or the scaled integer
`n = ⌊100·|x| + 1/2⌋` (ties pick the larger `n`) rendered with two
fraction digits. -/
def toFixed2 (x : ℚ) : String :=
  let sgn : List Char := if x < 0 then ['-'] else []
  let a := |x|
  if (10 : ℚ) ^ 21 ≤ a then String.mk (sgn ++ jsLargeToString a)
  else String.mk (sgn ++ insertDot (⌊a * 100 + 1 / 2⌋).toNat)

/-- A string ends in a decimal point followed by exactly two digits, with
no other decimal point ("rendered with exactly two fractional digits"). -/
def twoFracDigits (s : String) : Bool :=
  match s.data.reverse with
  | d2 :: d1 :: c :: rest =>
    d2.isDigit && d1.isDigit && (c == '.') && rest.all (fun x => x != '.')
  | _ => false

/-! ## Candidate value selection inside one observation
(`extractNumericValue`, the per-parameter `switch`) -/

/-- The per-parameter `switch`: filter the parsed values by the parameter's
range and take the first in-range one, falling back to the first parsed
value when none is in range. -/
def selectValue (p : Parameter) (validNumbers : List ℚ) : ℚ :=
  match p with
  | Parameter.pH =>
    match validNumbers.filter (fun n => decide (0 ≤ n ∧ n ≤ 14)) with
    | v :: _ => v
    | [] => validNumbers.headD 0
  | Parameter.temperature =>
    match validNumbers.filter (fun n => decide (-10 ≤ n ∧ n ≤ 60)) with
    | v :: _ => v
    | [] => validNumbers.headD 0
  | Parameter.dissolvedOxygen =>
    match validNumbers.filter (fun n => decide (0 ≤ n ∧ n ≤ 25)) with
    | v :: _ => v
    | [] => validNumbers.headD 0
  | Parameter.salinity =>
    match validNumbers.filter (fun n => decide (0 ≤ n ∧ n ≤ 50)) with
    | v :: _ => v
    | [] => validNumbers.headD 0

/-- The valid range the specification associates with each parameter. -/
def paramRange (p : Parameter) : ℚ × ℚ :=
  match p with
  | Parameter.pH => (0, 14)
  | Parameter.temperature => (-10, 60)
  | Parameter.dissolvedOxygen => (0, 25)
  | Parameter.salinity => (0, 50)

/-- `extractNumericValue(text, parameter)`: clean the text, scan numeric
tokens, parse them, select by range preference and format with two decimal
places; `"0.00"` when no token is found or none parses. -/
def extractNumericValue (text : String) (p : Parameter) : String :=
  let numbers := scanTokens (cleanText text)
  if numbers.isEmpty then "0.00"
  else
    let validNumbers := numbers.filterMap parseToken
    if validNumbers.isEmpty then "0.00"
    else toFixed2 (selectValue p validNumbers)

/-- `extractNumericValue` with the unreachable empty-parse guard removed. -/
def extractNumericValueNoGuard (text : String) (p : Parameter) : String :=
  let numbers := scanTokens (cleanText text)
  if numbers.isEmpty then "0.00"
  else toFixed2 (selectValue p (numbers.filterMap parseToken))

/-! ## Cross-variant selection (`processImage`, per-quadrant loop body) -/

/-- One OCR observation: recognised text and engine confidence. -/
structure Obs where
  text : String
  confidence : ℚ
  deriving DecidableEq, Repr

/-- One step of the best-candidate loop over the OCR strategies:

    if (numericValue !== "0.00" && confidence > bestConfidence) take it;
    else if (bestValue === "0.00" && numericValue !== "0.00") take it;
    else keep the current best.

The state and the candidate are (value, confidence) pairs. -/
def chooseStep (best cand : String × ℚ) : String × ℚ :=
  if cand.1 ≠ "0.00" ∧ best.2 < cand.2 then cand
  else if best.1 = "0.00" ∧ cand.1 ≠ "0.00" then cand
  else best

/-- Whether a (value, confidence) pair counts as a real candidate for the
loop, i.e. its value is not the `"0.00"` placeholder. -/
def isCand (c : String × ℚ) : Bool :=
  decide (c.1 ≠ "0.00")

/-- The candidate an arbiter following "highest confidence, first variant
wins ties" would pick from a list of (value, confidence) pairs. -/
def bestCand : List (String × ℚ) → Option (String × ℚ)
  | [] => none
  | c :: cs => some ((bestCand cs).elim c (fun m => if c.2 < m.2 then m else c))

/-- The per-parameter selection over all strategy observations, starting
from `bestValue = "0.00"`, `bestConfidence = 0`. -/
def selectBest (p : Parameter) (obs : List Obs) : String :=
  (obs.foldl (fun best o => chooseStep best (extractNumericValue o.text p, o.confidence)) ("0.00", 0)).1

/-! ## Orchestrator (`processImage`) -/

/-- The value recorded for one parameter: if anything in that parameter's
try-block (sharp preprocessing of its quadrant, OCR) threw, the catch block
stores `"0.00"`; otherwise the cross-variant selection over the
observations.  The pipeline outcome is an explicit input, a function of the
parameter and its quadrant region. -/
def extractionValue (outcomes : Parameter → Region → Except String (List Obs))
    (width height : Nat) (p : Parameter) : String :=
  match outcomes p (quadrants width height p) with
  | Except.error _ => "0.00"
  | Except.ok obs => selectBest p obs

/-- The shared `results` object: the concurrent per-parameter tasks write
into their own slot, in completion order. -/
def assemble (order : List Parameter) (f : Parameter → String) :
    Parameter → Option String :=
  order.foldl (fun m p q => if q = p then some (f p) else m q) (fun _ => none)

/-- `processImage`: a decode failure propagates to the caller; otherwise
the four quadrant pipelines run (their tasks completing in `order`) and
every parameter's slot is filled.  No dimension validation is performed
between decoding and partitioning. -/
def processImage (decoded : Except String (Nat × Nat))
    (outcomes : Parameter → Region → Except String (List Obs))
    (order : List Parameter) : Except String (Parameter → Option String) :=
  match decoded with
  | Except.error e => Except.error e
  | Except.ok (width, height) =>
    Except.ok (assemble order (extractionValue outcomes width height))

/-! ## Scanner and parser lemmas -/

theorem takeDigits_cons_digit {c : Char} (cs : List Char) (h : c.isDigit = true) :
    takeDigits (c :: cs) = (c :: (takeDigits cs).1, (takeDigits cs).2) := by
  rcases htd : takeDigits cs with ⟨ds, r⟩
  simp [takeDigits, h, htd]

theorem takeDigits_cons_not_digit {c : Char} (cs : List Char) (h : c.isDigit = false) :
    takeDigits (c :: cs) = ([], c :: cs) := by
  simp [takeDigits, h]

theorem takeDigits_fst_digits :
    ∀ (l : List Char), ∀ c ∈ (takeDigits l).1, c.isDigit = true := by
  intro l
  induction l with
  | nil => simp [takeDigits]
  | cons a as ih =>
    by_cases h : a.isDigit = true
    · rw [takeDigits_cons_digit as h]
      intro c hc
      rcases List.mem_cons.1 hc with rfl | hc2
      · exact h
      · exact ih c hc2
    · rw [takeDigits_cons_not_digit as (by simpa using h)]
      simp

theorem matchNum_none_of_fst_nil {l : List Char} (h : (takeDigits l).1 = []) :
    matchNum l = none := by
  simp [matchNum, h]

theorem matchNum_some_head {l t r : List Char} (h : matchNum l = some (t, r)) :
    ∃ d t2, t = d :: t2 ∧ d.isDigit = true := by
  unfold matchNum at h
  cases hds : (takeDigits l).1 with
  | nil => rw [hds] at h; simp at h
  | cons d t2 =>
    have hd : d.isDigit = true :=
      takeDigits_fst_digits l d (by rw [hds]; exact List.mem_cons_self _ _)
    rw [hds] at h
    have hne : ¬((d :: t2).isEmpty = true) := by simp
    by_cases h2 : (takeDigits l).2.headD ' ' = '.'
    · rw [if_neg hne, if_pos h2] at h
      simp only [Option.some.injEq, Prod.mk.injEq] at h
      exact ⟨d, t2 ++ '.' :: (takeDigits (takeDigits l).2.tail).1, h.1.symm, hd⟩
    · rw [if_neg hne, if_neg h2] at h
      simp only [Option.some.injEq, Prod.mk.injEq] at h
      exact ⟨d, t2, h.1.symm, hd⟩

theorem digit_ne_dash {d : Char} (h : d.isDigit = true) : d ≠ '-' := by
  intro heq
  subst heq
  exact absurd h (by decide)

theorem parseUnsigned_isSome_of_head_digit {d : Char} {rest : List Char}
    (hd : d.isDigit = true) : (parseUnsigned (d :: rest)).isSome = true := by
  unfold parseUnsigned
  rw [takeDigits_cons_digit rest hd]
  by_cases h2 : ((d :: (takeDigits rest).1, (takeDigits rest).2).2).headD ' ' = '.'
  · rw [if_neg (by simp), if_pos h2]
    rfl
  · rw [if_neg (by simp), if_neg h2]
    rfl

theorem parseToken_isSome_of_matchToken {l t r : List Char}
    (h : matchToken l = some (t, r)) : (parseToken t).isSome = true := by
  unfold matchToken at h
  by_cases h1 : l.headD ' ' = '-'
  · rw [if_pos h1] at h
    rcases hmn : matchNum l.tail with _ | ⟨t0, r0⟩
    · rw [hmn] at h; simp at h
    · rw [hmn] at h
      simp only [Option.some.injEq, Prod.mk.injEq] at h
      rcases matchNum_some_head hmn with ⟨d, t2, rfl, hd⟩
      rw [← h.1]
      unfold parseToken
      rw [if_pos (by simp)]
      simp only [List.tail_cons]
      simp [Option.isSome_map]
      exact parseUnsigned_isSome_of_head_digit hd
  · rw [if_neg h1] at h
    rcases matchNum_some_head h with ⟨d, t2, rfl, hd⟩
    unfold parseToken
    rw [if_neg (by simp [digit_ne_dash hd])]
    exact parseUnsigned_isSome_of_head_digit hd

theorem matchNum_nil : matchNum [] = none := by
  simp [matchNum, takeDigits]

theorem matchToken_none_of_no_digit {l : List Char}
    (h : ∀ c ∈ l, c.isDigit = false) : matchToken l = none := by
  have hnum : ∀ (l2 : List Char), (∀ c ∈ l2, c.isDigit = false) → matchNum l2 = none := by
    intro l2 h2
    cases l2 with
    | nil => exact matchNum_nil
    | cons c cs =>
      exact matchNum_none_of_fst_nil
        (by rw [takeDigits_cons_not_digit cs (h2 c (List.mem_cons_self _ _))])
  unfold matchToken
  by_cases h1 : l.headD ' ' = '-'
  · rw [if_pos h1]
    rw [hnum l.tail (fun c hc => h c (List.mem_of_mem_tail hc))]
  · rw [if_neg h1]
    exact hnum l h

theorem scanAux_nil_of_no_digit :
    ∀ (fuel : Nat) (l : List Char), (∀ c ∈ l, c.isDigit = false) →
      scanAux fuel l = [] := by
  intro fuel
  induction fuel with
  | zero => intro l h; cases l <;> simp [scanAux]
  | succ fuel ih =>
    intro l h
    cases l with
    | nil => simp [scanAux]
    | cons c cs =>
      rw [scanAux, matchToken_none_of_no_digit h]
      exact ih cs (fun c2 hc2 => h c2 (List.mem_cons_of_mem _ hc2))

theorem scanAux_all_parse :
    ∀ (fuel : Nat) (l : List Char), ∀ t ∈ scanAux fuel l, (parseToken t).isSome = true := by
  intro fuel
  induction fuel with
  | zero => intro l t ht; cases l <;> simp [scanAux] at ht
  | succ fuel ih =>
    intro l t ht
    cases l with
    | nil => simp [scanAux] at ht
    | cons c cs =>
      rw [scanAux] at ht
      rcases hmt : matchToken (c :: cs) with _ | ⟨t0, r⟩
      · rw [hmt] at ht
        exact ih cs t ht
      · rw [hmt] at ht
        rcases List.mem_cons.1 ht with rfl | h2
        · exact parseToken_isSome_of_matchToken hmt
        · exact ih r t h2

theorem scanTokens_all_parse (l : List Char) :
    ∀ t ∈ scanTokens l, (parseToken t).isSome = true :=
  scanAux_all_parse l.length l

theorem mem_trimWs {c : Char} {l : List Char} (h : c ∈ trimWs l) : c ∈ l := by
  unfold trimWs at h
  rw [List.mem_reverse] at h
  have h2 := (List.dropWhile_sublist _).subset h
  rw [List.mem_reverse] at h2
  exact (List.dropWhile_sublist _).subset h2

theorem cleanText_no_digit {s : String} (h : ∀ c ∈ s.data, c.isDigit = false) :
    ∀ c ∈ cleanText s, c.isDigit = false := by
  intro c hc
  have hc2 : c ∈ s.data.map cleanChar := mem_trimWs hc
  rcases List.mem_map.1 hc2 with ⟨c0, hc0, rfl⟩
  unfold cleanChar
  split
  · exact h c0 hc0
  · decide

/-! ## Claim theorems -/

/-- C1: for every parameter and OCR text containing no digit characters the
code does NOT return a distinct "no value" sentinel: `extractNumericValue`
renders the failed parse as precisely the string `"0.00"`, the same string
a parsed reading of zero produces.  This contradicts the claimed sentinel
behaviour (the claim is right about the intended design, the code is the
documented "silent zero-as-failure-sentinel" bug). -/
theorem c1_nodigit_yields_zero_string (p : Parameter) (text : String)
    (h : ∀ c ∈ text.data, c.isDigit = false) :
    extractNumericValue text p = "0.00" := by
  have h2 : scanTokens (cleanText text) = [] :=
    scanAux_nil_of_no_digit _ _ (cleanText_no_digit h)
  simp [extractNumericValue, h2]

/-- Witness: the concrete failing input `"abc"` evaluates to `"0.00"`. -/
theorem c1_nodigit_yields_zero_string_witness :
    extractNumericValue "abc" Parameter.pH = "0.00" :=
  c1_nodigit_yields_zero_string Parameter.pH "abc" (by decide)

/-- C10: every token produced by the numeric scan parses successfully
(`parseFloat` never returns NaN on a match of `-?\d+\.?\d*`), hence the
guard returning `"0.00"` when the parsed list is empty while the token list
is non-empty is unreachable and `extractNumericValue` coincides with the
version with that guard removed; it is total by construction. -/
theorem c10_tokens_parse (text : String) (p : Parameter) :
    (∀ t ∈ scanTokens (cleanText text), (parseToken t).isSome = true)
    ∧ extractNumericValue text p = extractNumericValueNoGuard text p := by
  constructor
  · exact scanTokens_all_parse _
  · unfold extractNumericValue extractNumericValueNoGuard
    cases hn : scanTokens (cleanText text) with
    | nil => simp [hn]
    | cons t0 ts =>
      rcases Option.isSome_iff_exists.1
        (scanTokens_all_parse _ t0 (by rw [hn]; exact List.mem_cons_self _ _)) with ⟨q, hq⟩
      simp [hn, List.filterMap_cons, hq]

/-- Witness for C10 at the concrete input `"7.4"`. -/
theorem c10_tokens_parse_witness :
    (parseToken ['7', '.', '4']).isSome = true
    ∧ extractNumericValue "7.4" Parameter.pH = extractNumericValueNoGuard "7.4" Parameter.pH :=
  ⟨(c10_tokens_parse "7.4" Parameter.pH).1 ['7', '.', '4'] (by decide),
   (c10_tokens_parse "7.4" Parameter.pH).2⟩

theorem head?_filter {α : Type} (pr : α → Bool) :
    ∀ l : List α, (l.filter pr).head? = l.find? pr := by
  intro l
  induction l with
  | nil => rfl
  | cons a t ih =>
    simp only [List.filter_cons, List.find?_cons]
    by_cases h : pr a = true
    · simp [h]
    · simp [h, ih]

theorem selectValue_eq (p : Parameter) (l : List ℚ) :
    selectValue p l =
      match l.filter (fun n => decide ((paramRange p).1 ≤ n ∧ n ≤ (paramRange p).2)) with
      | v :: _ => v
      | [] => l.headD 0 := by
  cases p <;> rfl

/-- C3: on a non-empty list of parsed values in scan order, the
per-parameter selection returns the first value inside the parameter's
valid range (pH [0,14], temperature [-10,60], dissolvedOxygen [0,25],
salinity [0,50]) and falls back to the first parsed value when none is in
range; in particular OCR text `"143"` for pH yields `"143.00"`. -/
theorem c3_range_preference (p : Parameter) (v0 : ℚ) (vs : List ℚ) :
    ((v0 :: vs).find? (fun n => decide ((paramRange p).1 ≤ n ∧ n ≤ (paramRange p).2)) = none →
      selectValue p (v0 :: vs) = v0)
    ∧ (∀ w, (v0 :: vs).find? (fun n => decide ((paramRange p).1 ≤ n ∧ n ≤ (paramRange p).2)) = some w →
      selectValue p (v0 :: vs) = w)
    ∧ extractNumericValue "143" Parameter.pH = "143.00" := by
  refine ⟨?_, ?_, by decide⟩
  · intro h
    rw [selectValue_eq]
    rw [← head?_filter] at h
    rcases hf : (v0 :: vs).filter
        (fun n => decide ((paramRange p).1 ≤ n ∧ n ≤ (paramRange p).2)) with _ | ⟨a, t⟩
    · rfl
    · rw [hf] at h
      simp at h
  · intro w h
    rw [selectValue_eq]
    rw [← head?_filter] at h
    rcases hf : (v0 :: vs).filter
        (fun n => decide ((paramRange p).1 ≤ n ∧ n ≤ (paramRange p).2)) with _ | ⟨a, t⟩
    · rw [hf] at h
      simp at h
    · rw [hf] at h
      simp at h
      exact h

/-- Witness for C3: for pH and the single out-of-range value 143 the
fallback returns 143 itself. -/
theorem c3_range_preference_witness : selectValue Parameter.pH [(143 : ℚ)] = 143 :=
  (c3_range_preference Parameter.pH 143 []).1 (by decide)

theorem ofNat_digit_isDigit {m : Nat} (h : m < 10) : (Char.ofNat (48 + m)).isDigit = true := by
  interval_cases m <;> decide

theorem natDigitsAux_digits : ∀ (fuel n : Nat), ∀ c ∈ natDigitsAux fuel n, c.isDigit = true := by
  intro fuel
  induction fuel with
  | zero => intro n c hc; simp [natDigitsAux] at hc
  | succ fuel ih =>
    intro n c hc
    rw [natDigitsAux] at hc
    by_cases h : n < 10
    · rw [if_pos h] at hc
      simp at hc
      subst hc
      exact ofNat_digit_isDigit h
    · rw [if_neg h] at hc
      rcases List.mem_append.1 hc with h2 | h2
      · exact ih _ c h2
      · simp at h2
        subst h2
        exact ofNat_digit_isDigit (Nat.mod_lt _ (by norm_num))

theorem natDigits_digits (n : Nat) : ∀ c ∈ natDigits n, c.isDigit = true :=
  natDigitsAux_digits _ _

theorem padTo3_digits {ds : List Char} (h : ∀ c ∈ ds, c.isDigit = true) :
    ∀ c ∈ padTo3 ds, c.isDigit = true := by
  intro c hc
  unfold padTo3 at hc
  split at hc
  · rcases List.mem_append.1 hc with h2 | h2
    · rw [List.eq_of_mem_replicate h2]
      decide
    · exact h c h2
  · exact h c hc

theorem padTo3_length (ds : List Char) : 3 ≤ (padTo3 ds).length := by
  unfold padTo3
  split
  · rw [List.length_append, List.length_replicate]
    omega
  · omega

theorem digit_ne_dot {c : Char} (h : c.isDigit = true) : c ≠ '.' := by
  intro heq
  subst heq
  exact absurd h (by decide)

theorem twoFracDigits_mk (l : List Char) :
    twoFracDigits (String.mk l) =
      (match l.reverse with
       | d2 :: d1 :: c :: rest =>
         d2.isDigit && d1.isDigit && (c == '.') && rest.all (fun x => x != '.')
       | _ => false) := rfl

theorem twoFracDigits_sgn_insertDot (n : Nat) (sgn : List Char)
    (hs : ∀ c ∈ sgn, c ≠ '.') :
    twoFracDigits (String.mk (sgn ++ insertDot n)) = true := by
  have hins : insertDot n
      = (padTo3 (natDigits n)).take ((padTo3 (natDigits n)).length - 2)
        ++ '.' :: (padTo3 (natDigits n)).drop ((padTo3 (natDigits n)).length - 2) := rfl
  rw [hins]
  have hdig : ∀ c ∈ padTo3 (natDigits n), c.isDigit = true :=
    padTo3_digits (natDigits_digits n)
  have hlen : 3 ≤ (padTo3 (natDigits n)).length := padTo3_length _
  have hdl : ((padTo3 (natDigits n)).drop ((padTo3 (natDigits n)).length - 2)).length = 2 := by
    rw [List.length_drop]
    omega
  rcases List.length_eq_two.mp hdl with ⟨a, b, hab⟩
  have ha : a.isDigit = true :=
    hdig a (List.drop_subset _ _ (by rw [hab]; exact List.mem_cons_self _ _))
  have hb : b.isDigit = true :=
    hdig b (List.drop_subset _ _ (by rw [hab]; simp))
  rw [hab, twoFracDigits_mk]
  have hrev : (sgn ++ ((padTo3 (natDigits n)).take ((padTo3 (natDigits n)).length - 2)
      ++ '.' :: [a, b])).reverse
      = b :: a :: '.' :: (((padTo3 (natDigits n)).take
          ((padTo3 (natDigits n)).length - 2)).reverse ++ sgn.reverse) := by
    simp
  rw [hrev]
  simp only [List.all_append, Bool.and_eq_true, List.all_eq_true, beq_self_eq_true]
  refine ⟨⟨⟨hb, ha⟩, trivial⟩, ?_, ?_⟩
  · intro x hx
    have hx2 : x ∈ padTo3 (natDigits n) := List.take_subset _ _ (List.mem_reverse.1 hx)
    simpa using digit_ne_dot (hdig x hx2)
  · intro x hx
    simpa using hs x (List.mem_reverse.1 hx)

/-- C7 (amended): every selected value of magnitude below `10 ^ 21` is
rendered as a decimal string with exactly two fractional digits; in
particular OCR text `"pH 7.4"` for pH yields `"7.40"`.  (The original
universal claim fails: values of magnitude at least `10 ^ 21` are rendered
by `toFixed` in exponential notation, see the counterexample.) -/
theorem c7_two_decimals_amended (q : ℚ) (h : |q| < 10 ^ 21) :
    twoFracDigits (toFixed2 q) = true
    ∧ extractNumericValue "pH 7.4" Parameter.pH = "7.40" := by
  constructor
  · have htf : toFixed2 q
        = String.mk ((if q < 0 then ['-'] else [])
            ++ insertDot (⌊|q| * 100 + 1 / 2⌋).toNat) := by
      unfold toFixed2
      rw [if_neg (not_le.mpr h)]
    rw [htf]
    refine twoFracDigits_sgn_insertDot _ _ ?_
    intro c hc
    split at hc
    · rcases List.mem_singleton.1 hc with rfl
      decide
    · simp at hc
  · decide

/-- Witness for C7 (amended) at the in-range value 7.4 = 37/5. -/
theorem c7_two_decimals_amended_witness :
    twoFracDigits (toFixed2 (37 / 5)) = true
    ∧ extractNumericValue "pH 7.4" Parameter.pH = "7.40" :=
  c7_two_decimals_amended (37 / 5) (by decide)

/-- Counterexample to C7 as stated: the 22-digit OCR text parses to
`10 ^ 21`, which `toFixed(2)` renders as `"1e+21"` — not a decimal string
with two fractional digits. -/
theorem c7_two_decimals_counterexample :
    extractNumericValue "1000000000000000000000" Parameter.pH = "1e+21"
    ∧ twoFracDigits "1e+21" = false := by
  constructor <;> decide

/-! ## Cross-variant selection lemmas -/

theorem isCand_iff {c : String × ℚ} : isCand c = true ↔ c.1 ≠ "0.00" := by
  simp [isCand]

theorem chooseStep_not_cand {b c : String × ℚ} (hb : b.1 ≠ "0.00")
    (hc : c.1 = "0.00") : chooseStep b c = b := by
  unfold chooseStep
  rw [if_neg (fun h => h.1 hc), if_neg (fun h => hb h.1)]

theorem chooseStep_zero_not_cand {c : String × ℚ} (conf : ℚ) (hc : c.1 = "0.00") :
    chooseStep ("0.00", conf) c = ("0.00", conf) := by
  unfold chooseStep
  rw [if_neg (fun h => h.1 hc), if_neg (fun h => h.2 hc)]

theorem chooseStep_zero_cand {c : String × ℚ} (conf : ℚ) (hc : c.1 ≠ "0.00") :
    chooseStep ("0.00", conf) c = c := by
  unfold chooseStep
  by_cases hlt : conf < c.2
  · rw [if_pos ⟨hc, hlt⟩]
  · rw [if_neg (fun h => hlt h.2), if_pos ⟨rfl, hc⟩]

theorem chooseStep_lt {b c : String × ℚ} (hc : c.1 ≠ "0.00") (hlt : b.2 < c.2) :
    chooseStep b c = c := by
  unfold chooseStep
  rw [if_pos ⟨hc, hlt⟩]

theorem chooseStep_ge {b c : String × ℚ} (hb : b.1 ≠ "0.00") (hlt : ¬b.2 < c.2) :
    chooseStep b c = b := by
  unfold chooseStep
  rw [if_neg (fun h => hlt h.2), if_neg (fun h => hb h.1)]

theorem bestCand_cons (c : String × ℚ) (cs : List (String × ℚ)) :
    bestCand (c :: cs)
      = some ((bestCand cs).elim c (fun m => if c.2 < m.2 then m else c)) := rfl

theorem bestCand_conf_le {c : String × ℚ} {cs : List (String × ℚ)} {m : String × ℚ}
    (h : bestCand (c :: cs) = some m) : c.2 ≤ m.2 := by
  rw [bestCand_cons] at h
  cases hbc : bestCand cs with
  | none =>
    rw [hbc] at h
    simp at h
    rw [← h]
  | some m0 =>
    rw [hbc] at h
    simp only [Option.elim_some] at h
    by_cases hlt : c.2 < m0.2
    · rw [if_pos hlt] at h
      rw [← Option.some.inj h]
      exact le_of_lt hlt
    · rw [if_neg hlt] at h
      rw [← Option.some.inj h]

theorem bestCand_mem : ∀ {l : List (String × ℚ)} {m : String × ℚ},
    bestCand l = some m → m ∈ l := by
  intro l
  induction l with
  | nil => intro m h; simp [bestCand] at h
  | cons c cs ih =>
    intro m h
    rw [bestCand_cons] at h
    cases hbc : bestCand cs with
    | none =>
      rw [hbc] at h
      simp at h
      rw [← h]
      exact List.mem_cons_self _ _
    | some m0 =>
      rw [hbc] at h
      simp only [Option.elim_some] at h
      by_cases hlt : c.2 < m0.2
      · rw [if_pos hlt] at h
        rw [← Option.some.inj h]
        exact List.mem_cons_of_mem _ (ih hbc)
      · rw [if_neg hlt] at h
        rw [← Option.some.inj h]
        exact List.mem_cons_self _ _

theorem bestCand_cons_lt {b c : String × ℚ} {xs : List (String × ℚ)} (h : b.2 < c.2) :
    bestCand (b :: c :: xs) = bestCand (c :: xs) := by
  rw [bestCand_cons b, bestCand_cons c]
  cases hbx : bestCand xs with
  | none =>
    simp [h]
  | some m =>
    simp only [Option.elim_some]
    by_cases hlt : c.2 < m.2
    · rw [if_pos hlt, if_pos (lt_trans h hlt)]
    · rw [if_neg hlt, if_pos h]

theorem bestCand_cons_ge {b c : String × ℚ} {xs : List (String × ℚ)} (h : c.2 ≤ b.2) :
    bestCand (b :: c :: xs) = bestCand (b :: xs) := by
  rw [bestCand_cons b (c :: xs), bestCand_cons c xs, bestCand_cons b xs]
  cases hbx : bestCand xs with
  | none =>
    simp [not_lt.mpr h]
  | some m =>
    simp only [Option.elim_some]
    by_cases hlt : c.2 < m.2
    · rw [if_pos hlt]
    · rw [if_neg hlt]
      have hmb : ¬b.2 < m.2 := not_lt.mpr (le_trans (not_lt.mp hlt) h)
      rw [if_neg (not_lt.mpr h), if_neg hmb]

theorem foldl_choose_valid :
    ∀ (l : List (String × ℚ)) (b : String × ℚ), b.1 ≠ "0.00" →
      some (l.foldl chooseStep b) = bestCand (b :: l.filter isCand) := by
  intro l
  induction l with
  | nil =>
    intro b hb
    rw [List.foldl_nil, List.filter_nil, bestCand_cons]
    rfl
  | cons c l ih =>
    intro b hb
    rw [List.foldl_cons]
    by_cases hc : isCand c = true
    · have hcv : c.1 ≠ "0.00" := isCand_iff.mp hc
      rw [List.filter_cons_of_pos hc]
      by_cases hlt : b.2 < c.2
      · rw [chooseStep_lt hcv hlt, ih c hcv, bestCand_cons_lt hlt]
      · rw [chooseStep_ge hb hlt, ih b hb, bestCand_cons_ge (not_lt.mp hlt)]
    · have hcv : c.1 = "0.00" := by
        by_contra hne
        exact hc (isCand_iff.mpr hne)
      rw [chooseStep_not_cand hb hcv, List.filter_cons_of_neg (by simpa using hc)]
      exact ih b hb

theorem foldl_choose_zero :
    ∀ (l : List (String × ℚ)),
      (l.foldl chooseStep ("0.00", 0)).1
        = ((bestCand (l.filter isCand)).map Prod.fst).getD "0.00" := by
  intro l
  induction l with
  | nil => rfl
  | cons c l ih =>
    rw [List.foldl_cons]
    by_cases hc : isCand c = true
    · have hcv : c.1 ≠ "0.00" := isCand_iff.mp hc
      rw [chooseStep_zero_cand 0 hcv, List.filter_cons_of_pos hc]
      have h2 := foldl_choose_valid l c hcv
      rw [← h2]
      rfl
    · have hcv : c.1 = "0.00" := by
        by_contra hne
        exact hc (isCand_iff.mpr hne)
      rw [chooseStep_zero_not_cand 0 hcv, List.filter_cons_of_neg (by simpa using hc)]
      exact ih

theorem selectBest_eq (p : Parameter) (obs : List Obs) :
    selectBest p obs =
      ((bestCand ((obs.map (fun o => (extractNumericValue o.text p, o.confidence))).filter
          isCand)).map Prod.fst).getD "0.00" := by
  unfold selectBest
  rw [show (obs.foldl (fun best o => chooseStep best (extractNumericValue o.text p, o.confidence))
        ("0.00", 0))
      = ((obs.map (fun o => (extractNumericValue o.text p, o.confidence))).foldl chooseStep
        ("0.00", 0)) from (List.foldl_map _ _ _ _).symm]
  exact foldl_choose_zero _

theorem bestCand_eq_none {l : List (String × ℚ)} : bestCand l = none ↔ l = [] := by
  cases l with
  | nil => simp [bestCand]
  | cons c cs => simp [bestCand_cons]

/-- C2: cross-variant selection picks the candidate with the highest
source confidence among the variants whose extraction is not the `"0.00"`
placeholder, resolving to the placeholder when every variant produces it;
ties are broken in favour of the earlier variant, and a variant with a
real candidate beats a placeholder variant regardless of confidence.  The
two concrete scenarios of the specification are verified:
temperature candidates (22.5, conf 60) and (-3.0, conf 85) select
`"-3.00"`, and two no-value variants plus (6.8, conf 40) select `"6.80"`. -/
theorem c2_cross_variant_selection :
    (∀ (p : Parameter) (obs : List Obs),
      selectBest p obs =
        ((bestCand ((obs.map (fun o => (extractNumericValue o.text p, o.confidence))).filter
            isCand)).map Prod.fst).getD "0.00")
    ∧ selectBest Parameter.temperature [⟨"22.5", 60⟩, ⟨"-3.0", 85⟩] = "-3.00"
    ∧ selectBest Parameter.pH [⟨"", 70⟩, ⟨"--", 90⟩, ⟨"6.8", 40⟩] = "6.80" :=
  ⟨selectBest_eq, by decide, by decide⟩

/-- C9: because the failure placeholder is the string `"0.00"`, a genuine
zero reading formats to `"0.00"` and is treated as if no candidate
existed: whenever some variant's extraction differs from `"0.00"` the
selected value is never `"0.00"` (so a zero-reading variant is never
selected even at strictly highest confidence), and when every variant's
extraction is `"0.00"` the output is `"0.00"`, identical to the output
when every variant fails. -/
theorem c9_zero_conflation :
    toFixed2 0 = "0.00"
    ∧ (∀ (p : Parameter) (obs : List Obs),
        (∃ o ∈ obs, extractNumericValue o.text p ≠ "0.00") → selectBest p obs ≠ "0.00")
    ∧ (∀ (p : Parameter) (obs : List Obs),
        (∀ o ∈ obs, extractNumericValue o.text p = "0.00") → selectBest p obs = "0.00")
    ∧ selectBest Parameter.pH [⟨"0.0", 99⟩, ⟨"5.0", 10⟩] = "5.00"
    ∧ selectBest Parameter.pH [⟨"0.0", 80⟩, ⟨"0", 90⟩] = "0.00"
    ∧ selectBest Parameter.pH [⟨"", 80⟩, ⟨"--", 90⟩] = "0.00" := by
  refine ⟨by decide, ?_, ?_, by decide, by decide, by decide⟩
  · intro p obs h
    rcases h with ⟨o, ho, hno⟩
    rw [selectBest_eq]
    have hmem : (extractNumericValue o.text p, o.confidence)
        ∈ (obs.map (fun o => (extractNumericValue o.text p, o.confidence))).filter isCand := by
      rw [List.mem_filter]
      exact ⟨List.mem_map_of_mem _ ho, isCand_iff.mpr hno⟩
    cases hbc : bestCand
        ((obs.map (fun o => (extractNumericValue o.text p, o.confidence))).filter isCand) with
    | none =>
      rw [bestCand_eq_none] at hbc
      rw [hbc] at hmem
      exact absurd hmem (List.not_mem_nil _)
    | some m =>
      have hm := bestCand_mem hbc
      rw [List.mem_filter] at hm
      show m.1 ≠ "0.00"
      exact isCand_iff.mp hm.2
  · intro p obs h
    rw [selectBest_eq]
    have hnil : (obs.map (fun o => (extractNumericValue o.text p, o.confidence))).filter isCand
        = [] := by
      rw [List.filter_eq_nil_iff]
      intro a ha
      rcases List.mem_map.1 ha with ⟨o, ho, rfl⟩
      intro hcand
      exact isCand_iff.mp hcand (h o ho)
    rw [hnil]
    rfl

/-- Witness for C9: a highest-confidence zero reading loses to a lower
confidence real reading, and an all-zero run is indistinguishable from an
all-failure run. -/
theorem c9_zero_conflation_witness :
    selectBest Parameter.pH [⟨"0.0", 99⟩, ⟨"5.0", 10⟩] ≠ "0.00"
    ∧ selectBest Parameter.pH [⟨"0.0", 80⟩, ⟨"0", 90⟩] = "0.00" :=
  ⟨c9_zero_conflation.2.1 Parameter.pH [⟨"0.0", 99⟩, ⟨"5.0", 10⟩]
      ⟨⟨"5.0", 10⟩, by decide, by decide⟩,
   c9_zero_conflation.2.2.1 Parameter.pH [⟨"0.0", 80⟩, ⟨"0", 90⟩] (by decide)⟩

/-! ## Orchestrator lemmas -/

theorem foldl_write_mem (f : Parameter → String) :
    ∀ (order : List Parameter) (m : Parameter → Option String) (p : Parameter),
      (p ∈ order →
        order.foldl (fun m2 p2 q => if q = p2 then some (f p2) else m2 q) m p = some (f p))
      ∧ (p ∉ order →
        order.foldl (fun m2 p2 q => if q = p2 then some (f p2) else m2 q) m p = m p) := by
  intro order
  induction order with
  | nil => intro m p; exact ⟨fun h => absurd h (List.not_mem_nil _), fun _ => rfl⟩
  | cons a rest ih =>
    intro m p
    constructor
    · intro hp
      rw [List.foldl_cons]
      by_cases hpr : p ∈ rest
      · exact (ih _ p).1 hpr
      · have hpa : p = a := by
          rcases List.mem_cons.1 hp with h1 | h1
          · exact h1
          · exact absurd h1 hpr
        rw [(ih _ p).2 hpr]
        subst hpa
        simp
    · intro hp
      rw [List.foldl_cons, (ih _ p).2 (fun h => hp (List.mem_cons_of_mem _ h))]
      have hne : p ≠ a := fun h => hp (by rw [h]; exact List.mem_cons_self _ _)
      simp [hne]

theorem assemble_mem (order : List Parameter) (f : Parameter → String) (p : Parameter)
    (hp : p ∈ order) : assemble order f p = some (f p) :=
  (foldl_write_mem f order _ p).1 hp

/-- C4: for a positive even width and height, the four quadrant regions
tile the image exactly — every pixel lies in exactly one region — and the
assignment is the fixed one: top-left pH, top-right temperature,
bottom-left dissolvedOxygen, bottom-right salinity, all computed with the
floor halves. -/
theorem c4_quadrants_tile (w h : Nat) (hw : 0 < w) (hh : 0 < h)
    (hew : w % 2 = 0) (heh : h % 2 = 0) :
    (∀ x y, x < w → y < h → ∃! p : Parameter, (quadrants w h p).contains x y)
    ∧ quadrants w h Parameter.pH = ⟨0, 0, w / 2, h / 2⟩
    ∧ quadrants w h Parameter.temperature = ⟨w / 2, 0, w / 2, h / 2⟩
    ∧ quadrants w h Parameter.dissolvedOxygen = ⟨0, h / 2, w / 2, h / 2⟩
    ∧ quadrants w h Parameter.salinity = ⟨w / 2, h / 2, w / 2, h / 2⟩ := by
  refine ⟨?_, rfl, rfl, rfl, rfl⟩
  intro x y hx hy
  rcases Nat.lt_or_ge x (w / 2) with hxl | hxr <;> rcases Nat.lt_or_ge y (h / 2) with hyl | hyr
  · refine ⟨Parameter.pH, ?_, ?_⟩
    · simp only [quadrants, Region.contains]
      omega
    · intro q hq
      cases q <;> simp only [quadrants, Region.contains] at hq ⊢ <;> first | rfl | omega
  · refine ⟨Parameter.dissolvedOxygen, ?_, ?_⟩
    · simp only [quadrants, Region.contains]
      omega
    · intro q hq
      cases q <;> simp only [quadrants, Region.contains] at hq ⊢ <;> first | rfl | omega
  · refine ⟨Parameter.temperature, ?_, ?_⟩
    · simp only [quadrants, Region.contains]
      omega
    · intro q hq
      cases q <;> simp only [quadrants, Region.contains] at hq ⊢ <;> first | rfl | omega
  · refine ⟨Parameter.salinity, ?_, ?_⟩
    · simp only [quadrants, Region.contains]
      omega
    · intro q hq
      cases q <;> simp only [quadrants, Region.contains] at hq ⊢ <;> first | rfl | omega

/-- Witness for C4 on a concrete 4 by 6 image and pixel (3, 1). -/
theorem c4_quadrants_tile_witness :
    ∃! p : Parameter, (quadrants 4 6 p).contains 3 1 :=
  (c4_quadrants_tile 4 6 (by decide) (by decide) (by decide) (by decide)).1 3 1
    (by decide) (by decide)

/-- C5: on a successful decode the orchestrator produces a result with all
four parameter slots populated; a failed pipeline yields the placeholder
in its own slot only, and each slot's value depends only on that
parameter's own pipeline outcome. -/
theorem c5_complete_isolated (w h : Nat)
    (outcomes : Parameter → Region → Except String (List Obs))
    (order : List Parameter) (hord : ∀ p : Parameter, p ∈ order) :
    (∃ r, processImage (Except.ok (w, h)) outcomes order = Except.ok r
       ∧ ∀ p, r p = some (extractionValue outcomes w h p))
    ∧ (∀ p e, outcomes p (quadrants w h p) = Except.error e →
        extractionValue outcomes w h p = "0.00")
    ∧ (∀ (outcomes2 : Parameter → Region → Except String (List Obs)) (p0 : Parameter),
        (∀ q, q ≠ p0 → outcomes2 q = outcomes q) →
        ∀ q, q ≠ p0 → extractionValue outcomes2 w h q = extractionValue outcomes w h q) := by
  refine ⟨⟨assemble order (extractionValue outcomes w h), rfl, ?_⟩, ?_, ?_⟩
  · intro p
    exact assemble_mem order _ p (hord p)
  · intro p e he
    unfold extractionValue
    rw [he]
  · intro outcomes2 p0 hagree q hq
    unfold extractionValue
    rw [hagree q hq]

/-- Witness for C5 with an all-failing set of pipelines on a 400 by 400
image. -/
theorem c5_complete_isolated_witness :
    ∃ r, processImage (Except.ok (400, 400)) (fun _ _ => Except.error "err")
        [Parameter.pH, Parameter.temperature, Parameter.dissolvedOxygen, Parameter.salinity]
      = Except.ok r
      ∧ ∀ p, r p = some (extractionValue (fun _ _ => Except.error "err") 400 400 p) :=
  (c5_complete_isolated 400 400 (fun _ _ => Except.error "err")
    [Parameter.pH, Parameter.temperature, Parameter.dissolvedOxygen, Parameter.salinity]
    (fun p => by cases p <;> decide)).1

/-- C6 counterexample: a decoded image of width 0 does NOT make extraction
signal an invalid-input error: no dimension validation exists, the
quadrants are computed with zero sizes, every per-parameter failure is
caught in its own slot, and a complete all-placeholder result is returned
to the caller. -/
theorem c6_zero_dims_counterexample :
    processImage (Except.ok (0, 100))
        (fun _ _ => Except.error "extract_area: bad extract area")
        [Parameter.pH, Parameter.temperature, Parameter.dissolvedOxygen, Parameter.salinity]
      = Except.ok (fun _ => some "0.00") := by
  show Except.ok _ = _
  congr 1
  funext p
  cases p <;> rfl

/-- C6 (amended): for an image that decodes with zero width, extraction
does not signal an invalid-input error; partitioning proceeds and a
complete result is produced, with all four slots populated. -/
theorem c6_zero_dims_amended (hgt : Nat)
    (outcomes : Parameter → Region → Except String (List Obs))
    (order : List Parameter) (hord : ∀ p : Parameter, p ∈ order) :
    ∃ r, processImage (Except.ok (0, hgt)) outcomes order = Except.ok r
      ∧ ∀ p, (r p).isSome = true := by
  refine ⟨assemble order (extractionValue outcomes 0 hgt), rfl, ?_⟩
  intro p
  rw [assemble_mem order _ p (hord p)]
  rfl

/-- Witness for C6 (amended). -/
theorem c6_zero_dims_amended_witness :
    ∃ r, processImage (Except.ok (0, 7)) (fun _ _ => Except.error "e")
        [Parameter.pH, Parameter.temperature, Parameter.dissolvedOxygen, Parameter.salinity]
      = Except.ok r ∧ ∀ p, (r p).isSome = true :=
  c6_zero_dims_amended 7 (fun _ _ => Except.error "e")
    [Parameter.pH, Parameter.temperature, Parameter.dissolvedOxygen, Parameter.salinity]
    (fun p => by cases p <;> decide)

/-- C8: the assembled result does not depend on the completion order of
the four concurrent per-parameter tasks; with identical decoded image and
identical OCR observations the extraction result is identical, tie-breaks
included (selection is a deterministic fold). -/
theorem c8_determinism (w h : Nat)
    (outcomes : Parameter → Region → Except String (List Obs))
    (o1 o2 : List Parameter)
    (h1 : ∀ p : Parameter, p ∈ o1) (h2 : ∀ p : Parameter, p ∈ o2) :
    processImage (Except.ok (w, h)) outcomes o1
      = processImage (Except.ok (w, h)) outcomes o2 := by
  show Except.ok (assemble o1 (extractionValue outcomes w h))
      = Except.ok (assemble o2 (extractionValue outcomes w h))
  congr 1
  funext p
  rw [assemble_mem o1 _ p (h1 p), assemble_mem o2 _ p (h2 p)]

/-- Witness for C8: two opposite completion orders give the same result. -/
theorem c8_determinism_witness :
    processImage (Except.ok (2, 2)) (fun _ _ => Except.ok [⟨"7.4", 80⟩])
        [Parameter.pH, Parameter.temperature, Parameter.dissolvedOxygen, Parameter.salinity]
      = processImage (Except.ok (2, 2)) (fun _ _ => Except.ok [⟨"7.4", 80⟩])
        [Parameter.salinity, Parameter.dissolvedOxygen, Parameter.temperature, Parameter.pH] :=
  c8_determinism 2 2 (fun _ _ => Except.ok [⟨"7.4", 80⟩]) _ _
    (fun p => by cases p <;> decide) (fun p => by cases p <;> decide)

end WaterQuality
